import Mathlib

set_option maxHeartbeats 1000000

/-!
Shallow embedding of the single source file `src/app.py` of the
jewelbench-flux-gen repository, together with theorems settling the
frozen claims about it.  Strings are modelled as lists of characters,
image byte payloads as lists of naturals, and each fallible remote
interaction as an explicit `Except`/`Option` value supplied by an
environment oracle.
-/

namespace JewelBench

/-!  ## Prompt resolver (`parse_dynamic_prompt`, lines 26-37)

The Python loop is

    while '[' in prompt and ']' in prompt:
        match = re.search(r'\[(.*?)\]', prompt)
        if match:
            options = match.group(1).split('|')
            choice = random.choice(options).strip()
            prompt = prompt.replace(match.group(0), choice, 1)
    return prompt

The regex searches for the leftmost position holding an opening bracket
from which a lazy scan reaches a closing bracket; the dot of the pattern
does not match a newline, so the scan fails if a newline occurs before
the first closing bracket after that position. -/

/-- Interior scan of the regex match at a fixed position: given the
characters after an opening bracket, return the interior up to the first
closing bracket together with the remainder after it; fail if a newline
(which the lazy dot cannot match) or the end of the string is reached
first. -/
def scanInterior : List Char → Option (List Char × List Char)
  | [] => none
  | c :: t =>
    if c = ']' then some ([], t)
    else if c = '\n' then none
    else (scanInterior t).map (fun x => (c :: x.1, x.2))

/-- The `re.search` of the loop: try each position from the left; at an
opening bracket attempt the interior scan, and on failure keep moving
right.  Returns the decomposition `(prefix, interior, suffix)` of the
string around the leftmost match. -/
def findGroup : List Char → Option (List Char × List Char × List Char)
  | [] => none
  | c :: t =>
    if c = '[' then
      match scanInterior t with
      | some x => some ([], x.1, x.2)
      | none => (findGroup t).map (fun y => (c :: y.1, y.2.1, y.2.2))
    else (findGroup t).map (fun y => (c :: y.1, y.2.1, y.2.2))

/-- Python `s.replace(pat, rep, 1)`: replace the first occurrence of
`pat` in `s` (scanning from the left), leaving `s` unchanged when `pat`
does not occur. -/
def replaceFirst (s pat rep : List Char) : List Char :=
  if pat.isPrefixOf s then rep ++ s.drop pat.length
  else
    match s with
    | [] => []
    | c :: t => c :: replaceFirst t pat rep

/-- Python `s.split(sep)` for a one-character separator: splitting never
collapses empty fields, and splitting the empty string yields one empty
field. -/
def pySplit (sep : Char) : List Char → List (List Char)
  | [] => [[]]
  | c :: t =>
    if c = sep then [] :: pySplit sep t
    else
      match pySplit sep t with
      | [] => [[c]]
      | p :: ps => (c :: p) :: ps

/-- The characters Python `str.strip()` removes. -/
def isPySpace (c : Char) : Bool :=
  c = ' ' || c = '\t' || c = '\n' || c = '\r' || c = '\x0b' || c = '\x0c'

/-- Python `str.strip()`. -/
def pyStrip (l : List Char) : List Char :=
  ((l.dropWhile isPySpace).reverse.dropWhile isPySpace).reverse

/-- Model of `random.choice(options)` by an oracle index `k`: the choice
is the entry at position `k` modulo the number of options (the options
list produced by the split is never empty). -/
def chooseOption (k : Nat) (opts : List (List Char)) : List Char :=
  opts.getD (k % opts.length) []

/-- One iteration of the loop body: locate the leftmost regex match,
split its interior on the pipe character, pick one alternative by the
oracle `k`, strip it, and replace the first occurrence of the whole
matched text.  When the regex finds no match the body changes nothing. -/
def resolveStep (k : Nat) (s : List Char) : List Char :=
  match findGroup s with
  | none => s
  | some x =>
    replaceFirst s ('[' :: x.2.1 ++ [']'])
      (pyStrip (chooseOption k (pySplit '|' x.2.1)))

/-- The loop `parse_dynamic_prompt`, with an explicit fuel bound on the number of
loop iterations (the Python loop has no bound; `none` means the fuel ran
out before the loop condition became false) and an oracle `picks`
supplying the random choices. -/
def parse_dynamic_prompt (picks : Nat → Nat) : Nat → List Char → Option (List Char)
  | 0, _ => none
  | fuel + 1, s =>
    if '[' ∈ s ∧ ']' ∈ s then
      parse_dynamic_prompt picks fuel (resolveStep (picks fuel) s)
    else some s

/-!  ### Well-formed templates

A template is well formed when its brackets describe a flat sequence of
groups: outside a group a closing bracket may not occur, inside a group
neither a nested opening bracket, a closing-free end, nor a newline
(which the regex dot cannot match) may occur.  This is exactly the class
of strings on which every bracket character belongs to a group the
code's regex can match. -/

/-- State machine checking well-formedness; the flag records whether the
scan is currently inside a bracket group. -/
def wfScan : List Char → Bool → Bool
  | [], inside => !inside
  | c :: t, false =>
    if c = '[' then wfScan t true
    else if c = ']' then false
    else wfScan t false
  | c :: t, true =>
    if c = ']' then wfScan t false
    else if c = '[' then false
    else if c = '\n' then false
    else wfScan t true

/-- No bracket character occurs in the list. -/
def noBrk (l : List Char) : Bool :=
  l.all (fun c => !(c = '[' || c = ']'))

/-- A legal group interior: no bracket and no newline. -/
def intOK (l : List Char) : Bool :=
  l.all (fun c => !(c = '[' || c = ']' || c = '\n'))

theorem noBrk_iff {l : List Char} :
    noBrk l = true ↔ ('[' ∉ l ∧ ']' ∉ l) := by
  constructor
  · intro h
    simp only [noBrk, List.all_eq_true] at h
    constructor
    · intro hm
      have := h _ hm
      simp at this
    · intro hm
      have := h _ hm
      simp at this
  · rintro ⟨h1, h2⟩
    simp only [noBrk, List.all_eq_true]
    intro c hc
    have hc1 : c ≠ '[' := fun he => h1 (he ▸ hc)
    have hc2 : c ≠ ']' := fun he => h2 (he ▸ hc)
    simp [hc1, hc2]

theorem intOK_iff {l : List Char} :
    intOK l = true ↔ ('[' ∉ l ∧ ']' ∉ l ∧ '\n' ∉ l) := by
  constructor
  · intro h
    simp only [intOK, List.all_eq_true] at h
    refine ⟨?_, ?_, ?_⟩ <;>
      · intro hm
        have := h _ hm
        simp at this
  · rintro ⟨h1, h2, h3⟩
    simp only [intOK, List.all_eq_true]
    intro c hc
    have hc1 : c ≠ '[' := fun he => h1 (he ▸ hc)
    have hc2 : c ≠ ']' := fun he => h2 (he ▸ hc)
    have hc3 : c ≠ '\n' := fun he => h3 (he ▸ hc)
    simp [hc1, hc2, hc3]

theorem scanInterior_sound :
    ∀ (l int rest : List Char), scanInterior l = some (int, rest) →
      l = int ++ ']' :: rest ∧ ']' ∉ int ∧ '\n' ∉ int := by
  intro l
  induction l with
  | nil => intro int rest h; simp [scanInterior] at h
  | cons c t ih =>
    intro int rest h
    by_cases hc : c = ']'
    · subst hc
      simp [scanInterior] at h
      obtain ⟨h1, h2⟩ := h
      subst h1; subst h2
      simp
    · by_cases hn : c = '\n'
      · subst hn
        simp [scanInterior, hc] at h
      · simp only [scanInterior, if_neg hc, if_neg hn, Option.map_eq_some'] at h
        obtain ⟨⟨i, r⟩, hrec, heq⟩ := h
        obtain ⟨hl, hri, hrn⟩ := ih i r hrec
        cases heq
        refine ⟨by simp [hl], ?_, ?_⟩
        · simp [hri, Ne.symm hc]
        · simp [hrn, Ne.symm hn]

theorem scanInterior_complete :
    ∀ (int rest : List Char), ']' ∉ int → '\n' ∉ int →
      scanInterior (int ++ ']' :: rest) = some (int, rest) := by
  intro int
  induction int with
  | nil => intro rest _ _; simp [scanInterior]
  | cons c t ih =>
    intro rest h1 h2
    have hc : c ≠ ']' := fun he => h1 (by simp [he])
    have hn : c ≠ '\n' := fun he => h2 (by simp [he])
    have ht1 : ']' ∉ t := fun hm => h1 (by simp [hm])
    have ht2 : '\n' ∉ t := fun hm => h2 (by simp [hm])
    simp [scanInterior, hc, hn, ih rest ht1 ht2]

theorem findGroup_sound :
    ∀ (s pre int suf : List Char), findGroup s = some (pre, int, suf) →
      s = pre ++ '[' :: int ++ ']' :: suf ∧ ']' ∉ int ∧ '\n' ∉ int := by
  intro s
  induction s with
  | nil => intro pre int suf h; simp [findGroup] at h
  | cons c t ih =>
    intro pre int suf h
    simp only [findGroup] at h
    split at h
    · rename_i hc
      split at h
      · rename_i x hsc
        simp only [Option.some.injEq, Prod.mk.injEq] at h
        obtain ⟨h1, h2, h3⟩ := h
        subst h1; subst h2; subst h3
        obtain ⟨hl, hri, hrn⟩ := scanInterior_sound t x.1 x.2 hsc
        exact ⟨by simp [hc, hl], hri, hrn⟩
      · rename_i hsc
        rcases hrec : findGroup t with _ | ⟨⟨p, i, u⟩⟩
        · rw [hrec] at h; simp at h
        · rw [hrec] at h
          simp only [Option.map_some', Option.some.injEq, Prod.mk.injEq] at h
          obtain ⟨h1, h2, h3⟩ := h
          subst h1; subst h2; subst h3
          obtain ⟨hl, hri, hrn⟩ := ih p i u hrec
          exact ⟨by simp [hl], hri, hrn⟩
    · rename_i hc
      rcases hrec : findGroup t with _ | ⟨⟨p, i, u⟩⟩
      · rw [hrec] at h; simp at h
      · rw [hrec] at h
        simp only [Option.map_some', Option.some.injEq, Prod.mk.injEq] at h
        obtain ⟨h1, h2, h3⟩ := h
        subst h1; subst h2; subst h3
        obtain ⟨hl, hri, hrn⟩ := ih p i u hrec
        exact ⟨by simp [hl], hri, hrn⟩

theorem findGroup_complete :
    ∀ (pre int suf : List Char), noBrk pre = true → ']' ∉ int → '\n' ∉ int →
      findGroup (pre ++ '[' :: int ++ ']' :: suf) = some (pre, int, suf) := by
  intro pre
  induction pre with
  | nil =>
    intro int suf _ h1 h2
    rw [List.nil_append]
    simp [findGroup, scanInterior_complete int suf h1 h2]
  | cons c t ih =>
    intro int suf hpre h1 h2
    have hmem := noBrk_iff.mp hpre
    have hc : c ≠ '[' := fun he => hmem.1 (by simp [he])
    have ht : noBrk t = true :=
      noBrk_iff.mpr ⟨fun hm => hmem.1 (by simp [hm]), fun hm => hmem.2 (by simp [hm])⟩
    rw [List.cons_append]
    simp [findGroup, if_neg hc]
    simpa using ih int suf ht h1 h2

theorem replaceFirst_of_findGroup :
    ∀ (s pre int suf rep : List Char), findGroup s = some (pre, int, suf) →
      replaceFirst s ('[' :: int ++ [']']) rep = pre ++ rep ++ suf := by
  intro s
  induction s with
  | nil => intro pre int suf rep h; simp [findGroup] at h
  | cons c t ih =>
    intro pre int suf rep h
    simp only [findGroup] at h
    split at h
    · rename_i hc
      split at h
      · rename_i x hsc
        simp only [Option.some.injEq, Prod.mk.injEq] at h
        obtain ⟨h1, h2, h3⟩ := h
        subst h1; subst h2; subst h3
        obtain ⟨hl, _, _⟩ := scanInterior_sound t x.1 x.2 hsc
        have hs : c :: t = ('[' :: x.1 ++ [']']) ++ x.2 := by simp [hc, hl]
        have hpref : ('[' :: x.1 ++ [']']).isPrefixOf (c :: t) = true := by
          rw [hs]
          exact List.isPrefixOf_iff_prefix.mpr ⟨x.2, rfl⟩
        rw [replaceFirst, if_pos hpref, hs, List.drop_left]
        simp
      · rename_i hsc
        rcases hrec : findGroup t with _ | ⟨⟨p, i, u⟩⟩
        · rw [hrec] at h; simp at h
        · rw [hrec] at h
          simp only [Option.map_some', Option.some.injEq, Prod.mk.injEq] at h
          obtain ⟨h1, h2, h3⟩ := h
          subst h1; subst h2; subst h3
          obtain ⟨_, hri, hrn⟩ := findGroup_sound t p i u hrec
          have hnp : ¬ (('[' :: i ++ [']']).isPrefixOf (c :: t) = true) := by
            intro hp
            obtain ⟨u2, hu⟩ := List.isPrefixOf_iff_prefix.mp hp
            simp only [List.cons_append, List.append_assoc, List.singleton_append,
              List.nil_append, List.cons.injEq] at hu
            rw [← hu.2, scanInterior_complete i u2 hri hrn] at hsc
            exact Option.noConfusion hsc
          rw [replaceFirst, if_neg hnp, ih p i u rep hrec]
          simp [hc]
    · rename_i hc
      rcases hrec : findGroup t with _ | ⟨⟨p, i, u⟩⟩
      · rw [hrec] at h; simp at h
      · rw [hrec] at h
        simp only [Option.map_some', Option.some.injEq, Prod.mk.injEq] at h
        obtain ⟨h1, h2, h3⟩ := h
        subst h1; subst h2; subst h3
        have hnp : ¬ (('[' :: i ++ [']']).isPrefixOf (c :: t) = true) := by
          intro hp
          obtain ⟨u2, hu⟩ := List.isPrefixOf_iff_prefix.mp hp
          simp only [List.cons_append, List.cons.injEq] at hu
          exact hc hu.1.symm
        rw [replaceFirst, if_neg hnp, ih p i u rep hrec]
        simp

theorem noBrk_cons {c : Char} {t : List Char} :
    noBrk (c :: t) = true ↔ (c ≠ '[' ∧ c ≠ ']' ∧ noBrk t = true) := by
  constructor
  · intro h
    have hm := noBrk_iff.mp h
    refine ⟨fun he => hm.1 (by simp [he]), fun he => hm.2 (by simp [he]), ?_⟩
    exact noBrk_iff.mpr ⟨fun hmm => hm.1 (by simp [hmm]), fun hmm => hm.2 (by simp [hmm])⟩
  · rintro ⟨h1, h2, h3⟩
    have hm := noBrk_iff.mp h3
    apply noBrk_iff.mpr
    constructor
    · intro hmm
      rcases List.mem_cons.mp hmm with he | hmem
      · exact h1 he.symm
      · exact hm.1 hmem
    · intro hmm
      rcases List.mem_cons.mp hmm with he | hmem
      · exact h2 he.symm
      · exact hm.2 hmem

theorem wfScan_inside :
    ∀ l, wfScan l true = true →
      ∃ int suf, l = int ++ ']' :: suf ∧ intOK int = true ∧ wfScan suf false = true := by
  intro l
  induction l with
  | nil => intro h; simp [wfScan] at h
  | cons c t ih =>
    intro h
    by_cases hcl : c = ']'
    · subst hcl
      refine ⟨[], t, by simp, by simp [intOK], ?_⟩
      simpa [wfScan] using h
    · by_cases ho : c = '['
      · subst ho
        simp [wfScan] at h
      · by_cases hn : c = '\n'
        · subst hn
          simp [wfScan, hcl] at h
        · have h' : wfScan t true = true := by simpa [wfScan, hcl, ho, hn] using h
          obtain ⟨int, suf, hl, hint, hsuf⟩ := ih h'
          refine ⟨c :: int, suf, by simp [hl], ?_, hsuf⟩
          have hm := intOK_iff.mp hint
          apply intOK_iff.mpr
          refine ⟨?_, ?_, ?_⟩ <;> intro hmm
          · rcases List.mem_cons.mp hmm with he | hmem
            · exact ho he.symm
            · exact hm.1 hmem
          · rcases List.mem_cons.mp hmm with he | hmem
            · exact hcl he.symm
            · exact hm.2.1 hmem
          · rcases List.mem_cons.mp hmm with he | hmem
            · exact hn he.symm
            · exact hm.2.2 hmem

theorem wfScan_outside :
    ∀ s, wfScan s false = true →
      noBrk s = true ∨ ∃ pre int suf, s = pre ++ '[' :: int ++ ']' :: suf ∧
        noBrk pre = true ∧ intOK int = true ∧ wfScan suf false = true := by
  intro s
  induction s with
  | nil => intro _; left; simp [noBrk]
  | cons c t ih =>
    intro h
    by_cases ho : c = '['
    · subst ho
      have h' : wfScan t true = true := by simpa [wfScan] using h
      obtain ⟨int, suf, hl, hint, hsuf⟩ := wfScan_inside t h'
      right
      exact ⟨[], int, suf, by simp [hl], by simp [noBrk], hint, hsuf⟩
    · by_cases hcl : c = ']'
      · subst hcl
        simp [wfScan] at h
      · have h' : wfScan t false = true := by simpa [wfScan, ho, hcl] using h
        rcases ih h' with hnb | ⟨pre, int, suf, hl, hpre, hint, hsuf⟩
        · left
          exact noBrk_cons.mpr ⟨ho, hcl, hnb⟩
        · right
          exact ⟨c :: pre, int, suf, by simp [hl], noBrk_cons.mpr ⟨ho, hcl, hpre⟩,
            hint, hsuf⟩

theorem wfScan_append_noBrk :
    ∀ (a r : List Char), noBrk a = true → wfScan (a ++ r) false = wfScan r false := by
  intro a
  induction a with
  | nil => intro r _; simp
  | cons c t ih =>
    intro r h
    obtain ⟨ho, hcl, ht⟩ := noBrk_cons.mp h
    simp [wfScan, ho, hcl, ih r ht]

theorem pySplit_ne_nil (sep : Char) : ∀ l, pySplit sep l ≠ [] := by
  intro l
  induction l with
  | nil => simp [pySplit]
  | cons c t ih =>
    by_cases hc : c = sep
    · simp [pySplit, hc]
    · simp only [pySplit, if_neg hc]
      rcases h : pySplit sep t with _ | ⟨p, ps⟩
      · simp
      · simp

theorem mem_pySplit {sep : Char} :
    ∀ (l p : List Char), p ∈ pySplit sep l → ∀ c ∈ p, c ∈ l := by
  intro l
  induction l with
  | nil =>
    intro p hp c hc
    simp [pySplit] at hp
    subst hp
    simp at hc
  | cons d t ih =>
    intro p hp c hc
    by_cases hd : d = sep
    · rw [pySplit, if_pos hd] at hp
      rcases List.mem_cons.mp hp with h1 | h2
      · subst h1; simp at hc
      · exact List.mem_cons_of_mem d (ih p h2 c hc)
    · rw [pySplit, if_neg hd] at hp
      rcases hq : pySplit sep t with _ | ⟨q, qs⟩
      · exact absurd hq (pySplit_ne_nil sep t)
      · rw [hq] at hp
        rcases List.mem_cons.mp hp with h1 | h2
        · subst h1
          rcases List.mem_cons.mp hc with he | hmem
          · exact he ▸ List.mem_cons_self d t
          · exact List.mem_cons_of_mem d (ih q (hq ▸ List.mem_cons_self q qs) c hmem)
        · exact List.mem_cons_of_mem d (ih p (hq ▸ List.mem_cons_of_mem q h2) c hc)

theorem mem_pyStrip {l : List Char} : ∀ c ∈ pyStrip l, c ∈ l := by
  intro c hc
  rw [pyStrip, List.mem_reverse] at hc
  have h1 := (List.dropWhile_sublist (l := (l.dropWhile isPySpace).reverse)
    (p := isPySpace)).subset hc
  rw [List.mem_reverse] at h1
  exact (List.dropWhile_sublist (l := l) (p := isPySpace)).subset h1

theorem chooseOption_mem {k : Nat} {opts : List (List Char)} (h : opts ≠ []) :
    chooseOption k opts ∈ opts := by
  rw [chooseOption]
  have hlen : 0 < opts.length := List.length_pos.mpr h
  have hk : k % opts.length < opts.length := Nat.mod_lt _ hlen
  rw [List.getD_eq_getElem?_getD, List.getElem?_eq_getElem hk]
  exact List.getElem_mem hk

/-- The chosen, stripped alternative contains only characters of the
group interior, hence no bracket when the interior is legal. -/
theorem choice_noBrk {k : Nat} {int : List Char} (h : intOK int = true) :
    noBrk (pyStrip (chooseOption k (pySplit '|' int))) = true := by
  have hm := intOK_iff.mp h
  apply noBrk_iff.mpr
  constructor <;> intro hmm
  · exact hm.1 (mem_pySplit int _ (chooseOption_mem (pySplit_ne_nil '|' int)) _
      (mem_pyStrip _ hmm))
  · exact hm.2.1 (mem_pySplit int _ (chooseOption_mem (pySplit_ne_nil '|' int)) _
      (mem_pyStrip _ hmm))

/-- On a decomposed well-formed string the loop body replaces exactly
the leftmost group with the chosen stripped alternative. -/
theorem resolveStep_decomp (k : Nat) (pre int suf : List Char)
    (hpre : noBrk pre = true) (hint : intOK int = true) :
    resolveStep k (pre ++ '[' :: int ++ ']' :: suf) =
      pre ++ pyStrip (chooseOption k (pySplit '|' int)) ++ suf := by
  have hm := intOK_iff.mp hint
  have hf := findGroup_complete pre int suf hpre hm.2.1 hm.2.2
  simp only [resolveStep, hf]
  exact replaceFirst_of_findGroup _ pre int suf _ hf

theorem resolve_wf_aux (picks : Nat → Nat) :
    ∀ fuel s, wfScan s false = true → s.count '[' < fuel →
      ∃ out, parse_dynamic_prompt picks fuel s = some out ∧ noBrk out = true := by
  intro fuel
  induction fuel with
  | zero => intro s _ h; omega
  | succ f ih =>
    intro s hwf hcount
    rcases wfScan_outside s hwf with hnb | ⟨pre, int, suf, hl, hpre, hint, hsuf⟩
    · have hmem := noBrk_iff.mp hnb
      refine ⟨s, ?_, hnb⟩
      rw [parse_dynamic_prompt, if_neg (fun hand => hmem.1 hand.1)]
    · subst hl
      have hcond : '[' ∈ pre ++ '[' :: int ++ ']' :: suf ∧
          ']' ∈ pre ++ '[' :: int ++ ']' :: suf := by
        constructor <;> simp
      set choice := pyStrip (chooseOption (picks f) (pySplit '|' int)) with hchdef
      have hch : noBrk choice = true := choice_noBrk hint
      have hwf' : wfScan (pre ++ choice ++ suf) false = true := by
        rw [List.append_assoc, wfScan_append_noBrk pre _ hpre,
          wfScan_append_noBrk choice _ hch]
        exact hsuf
      have hcpre : pre.count '[' = 0 := List.count_eq_zero.mpr (noBrk_iff.mp hpre).1
      have hcint : int.count '[' = 0 := List.count_eq_zero.mpr (intOK_iff.mp hint).1
      have hcch : choice.count '[' = 0 := List.count_eq_zero.mpr (noBrk_iff.mp hch).1
      have hcs : (pre ++ '[' :: int ++ ']' :: suf).count '[' = suf.count '[' + 1 := by
        simp [List.count_append, List.count_cons, hcpre, hcint]
      have hcs' : (pre ++ choice ++ suf).count '[' = suf.count '[' := by
        simp [List.count_append, hcpre, hcch]
      have hlt : (pre ++ choice ++ suf).count '[' < f := by omega
      obtain ⟨out, hrun, hout⟩ := ih (pre ++ choice ++ suf) hwf' hlt
      refine ⟨out, ?_, hout⟩
      rw [parse_dynamic_prompt, if_pos hcond,
        resolveStep_decomp (picks f) pre int suf hpre hint]
      exact hrun

/-- On the three-character input closing bracket, letter a, opening
bracket, the loop condition holds but the regex never matches, so every
iteration leaves the string unchanged and any amount of fuel is
exhausted. -/
theorem resolver_stuck_aux (picks : Nat → Nat) :
    ∀ fuel, parse_dynamic_prompt picks fuel ([']', 'a', '[']) = none := by
  intro fuel
  induction fuel with
  | zero => rfl
  | succ f ih =>
    have hfg : findGroup [']', 'a', '['] = none := by decide
    have hstep : resolveStep (picks f) [']', 'a', '['] = [']', 'a', '['] := by
      simp [resolveStep, hfg]
    rw [parse_dynamic_prompt, if_pos (by decide), hstep]
    exact ih

/-- Claim C6: for every template string whose bracket groups are all
balanced and well formed (checked by `wfScan`), the prompt resolver
terminates — fuel equal to one more than the number of opening brackets
suffices — and its output contains no bracket character that belonged to
a well-formed group: in a well-formed template every bracket belongs to
a group, and the output contains no bracket at all.  Each iteration
replaces the leftmost group by one of its whitespace-trimmed
alternatives (this is `resolveStep`). -/
theorem C6_resolver_terminates_on_wf (s : List Char) (picks : Nat → Nat)
    (h : wfScan s false = true) :
    ∃ out, parse_dynamic_prompt picks (s.count '[' + 1) s = some out ∧
      '[' ∉ out ∧ ']' ∉ out := by
  obtain ⟨out, hrun, hout⟩ := resolve_wf_aux picks (s.count '[' + 1) s h (by omega)
  exact ⟨out, hrun, (noBrk_iff.mp hout).1, (noBrk_iff.mp hout).2⟩

/-- Witness for claim C6 at the concrete template of the spec scenario. -/
theorem C6_resolver_terminates_on_wf_witness :
    wfScan ("[gold|silver] ring".toList) false = true ∧
    (∃ out, parse_dynamic_prompt (fun _ => 0)
        (("[gold|silver] ring".toList).count '[' + 1) "[gold|silver] ring".toList =
        some out ∧ '[' ∉ out ∧ ']' ∉ out) :=
  ⟨by decide, C6_resolver_terminates_on_wf _ _ (by decide)⟩

/-- Claim C9: there is an input containing both bracket characters but no
well-formed group — the three characters closing bracket, letter a,
opening bracket — on which the resolver does not terminate: the loop
condition stays true, the regex finds no match, the body never modifies
the string, and the loop runs forever (every fuel bound is exhausted). -/
theorem C9_resolver_diverges_on_stray_brackets :
    ('[' ∈ ([']', 'a', '['] : List Char) ∧ ']' ∈ ([']', 'a', '['] : List Char)) ∧
    findGroup [']', 'a', '['] = none ∧
    (∀ k, resolveStep k [']', 'a', '['] = [']', 'a', '[']) ∧
    (∀ picks fuel, parse_dynamic_prompt picks fuel [']', 'a', '['] = none) := by
  refine ⟨by decide, by decide, ?_, fun picks fuel => resolver_stuck_aux picks fuel⟩
  intro k
  have hfg : findGroup [']', 'a', '['] = none := by decide
  simp [resolveStep, hfg]

/-- Counterexample to claim C7 as stated: the input of a closing bracket,
the letter a and an opening bracket contains zero bracket groups, yet the
resolver is not the identity on it — it never returns at all, for any
amount of fuel. -/
theorem C7_counterexample :
    findGroup [']', 'a', '['] = none ∧
    ¬ ∃ fuel, parse_dynamic_prompt (fun _ => 0) fuel [']', 'a', '['] =
      some [']', 'a', '['] := by
  refine ⟨by decide, ?_⟩
  rintro ⟨fuel, h⟩
  rw [resolver_stuck_aux (fun _ => 0) fuel] at h
  exact Option.noConfusion h

/-- Claim C7 (amended): for every template string that contains zero
bracket groups and does not contain both an opening and a closing
bracket character, the prompt resolver is the identity: it returns the
input unchanged (with any positive fuel). -/
theorem C7_resolver_identity_on_groupfree (s : List Char) (picks : Nat → Nat)
    (fuel : Nat) (hfuel : 0 < fuel) (_hzero : findGroup s = none)
    (hb : ¬ ('[' ∈ s ∧ ']' ∈ s)) :
    parse_dynamic_prompt picks fuel s = some s := by
  cases fuel with
  | zero => omega
  | succ f => rw [parse_dynamic_prompt, if_neg hb]

/-- Witness for the amended claim C7 at a concrete bracket-free input. -/
theorem C7_resolver_identity_on_groupfree_witness :
    (0 < 3 ∧ findGroup ("a ring".toList) = none ∧
      ¬ ('[' ∈ "a ring".toList ∧ ']' ∈ "a ring".toList)) ∧
    parse_dynamic_prompt (fun _ => 0) 3 "a ring".toList = some "a ring".toList :=
  ⟨⟨by decide, by decide, by decide⟩,
    C7_resolver_identity_on_groupfree _ _ 3 (by decide) (by decide) (by decide)⟩

/-!  ## Generation pipeline (`run_generations`, lines 112-158)

A job's interaction with the remote world is modelled by three oracles:
what running its `fal_client.submit_async(...)` coroutine does — the
coroutines are created eagerly at lines 123-131 but only execute inside
`await asyncio.gather(*chunk)` at line 139, which is OUTSIDE the
try/except of lines 142-152, so a submission exception propagates
uncaught through `asyncio.run` and aborts the whole run — what the
awaited `resp_handler.get()` yields, and what the follow-up
`requests.get(url)` download does for a given URL.  A response is a
dictionary that may lack the `images` key, whose image list may be
empty, and whose first image may lack the `url` key; each such shape
makes the corresponding lookup in the try block raise.  The download
either raises (transport error) or returns an HTTP response whose
`.content` bytes the code appends without ever checking the status
code. -/

/-- One entry of the response's image list; `none` models a missing url
key. -/
structure FalImage where
  url : Option String

/-- The response value of a completed job; `none` models a missing
images key. -/
structure FalResponse where
  images : Option (List FalImage)

/-- Outcome of `requests.get(url)`: either the call raises (transport
error), or it returns a response with a status code and body bytes —
`requests` does not raise on a non-success status, and the code reads
`.content` without checking `status_code`. -/
inductive FetchOutcome where
  | raised (msg : String)
  | httpResponse (status : Nat) (content : List Nat)

/-- The remote behaviour relevant to one job: whether executing its
submission coroutine raises, the outcome of awaiting its result handle,
and the outcome of downloading any given URL. -/
structure JobEnv where
  submit : Except String Unit
  get : Except String FalResponse
  fetch : String → FetchOutcome

/-- The body of the per-job try block:
`res = await resp_handler.get(); img_url = res['images'][0]['url'];
img_data = requests.get(img_url).content`.  The await raising, a
missing key, an empty image list, and the download raising are each an
`error`; a download that returns an HTTP response yields its body bytes
whatever the status code, because the code never checks it. -/
def jobBody (env : JobEnv) : Except String (List Nat) :=
  match env.get with
  | .error e => .error e
  | .ok res =>
    match res.images with
    | none => .error "KeyError: images"
    | some imgs =>
      match imgs[0]? with
      | none => .error "IndexError: list index out of range"
      | some img =>
        match img.url with
        | none => .error "KeyError: url"
        | some u =>
          match env.fetch u with
          | .raised m => .error m
          | .httpResponse _ content => .ok content

/-- The `except Exception as e: print(...)` around the body: a success
appends its bytes to `results`, a failure is logged and contributes
nothing. -/
def handleJob (acc : List (List Nat)) (env : JobEnv) : List (List Nat) :=
  match jobBody env with
  | .ok b => acc ++ [b]
  | .error _ => acc

/-- The first submission in the list whose coroutine raises, if any:
`asyncio.gather` runs every submission of a wave and propagates an
exception raised by any of them; the model deterministically propagates
the first one in list order. -/
def firstSubmitError : List JobEnv → Option String
  | [] => none
  | e :: t =>
    match e.submit with
    | .error m => some m
    | .ok _ => firstSubmitError t

/-- The Python chunking loop header
`for i in range(0, len(tasks), n): chunk = tasks[i:i+n]`: the k-th wave
is the slice starting at k times n, and there are ceiling of length over
n waves. -/
def pyChunks (n : Nat) (l : List α) : List (List α) :=
  (List.range ((l.length + n - 1) / n)).map (fun k => (l.drop (k * n)).take n)

/-- One iteration of the wave loop: `await asyncio.gather(*chunk)` —
which propagates an exception raised by any submission of the wave,
aborting the run — followed, when the gather returns, by the inner
for-loop whose per-handler try/except appends successes.  A run already
aborted by an earlier wave stays aborted. -/
def runWave (acc : Except String (List (List Nat))) (c : List JobEnv) :
    Except String (List (List Nat)) :=
  match acc with
  | .error m => .error m
  | .ok rs =>
    match firstSubmitError c with
    | some m => .error m
    | none => .ok (c.foldl handleJob rs)

/-- The batch loop `run_generations`: process the submitted jobs in
waves of `chunk_size = 4`.  An `error` is an exception escaping
`asyncio.run(run_generations())` at line 158: the script dies before
the display code, so no results are delivered; an `ok` run collects
each successful payload in arrival order, per-job failures inside the
try block being swallowed by `handleJob`. -/
def run_generations (jobs : List JobEnv) : Except String (List (List Nat)) :=
  (pyChunks 4 jobs).foldl runWave (.ok [])

/-- The successive values of the `completed` counter as reported to the
progress bar: after each wave, `completed += len(chunk)`. -/
def reportsAux (acc : Nat) : List (List JobEnv) → List Nat
  | [] => []
  | c :: cs => (acc + c.length) :: reportsAux (acc + c.length) cs

/-- The reported completed counts of a run, one per wave. -/
def completedReports (jobs : List JobEnv) : List Nat :=
  reportsAux 0 (pyChunks 4 jobs)

/-- The reported progress fractions, one per wave:
`min(completed / len(prompts_to_run), 1.0)`. -/
def progressReports (jobs : List JobEnv) : List ℚ :=
  (completedReports jobs).map (fun c : Nat => min ((c : ℚ) / (jobs.length : ℚ)) 1)

/-- Observable events of a run in program order: the gather that starts
a wave, and the resolution (success or failure) of one job of a wave. -/
inductive WaveEvent where
  | waveStart (k : Nat)
  | jobResolved (k j : Nat)
deriving DecidableEq

/-- The events of wave `k`: its start, then the resolution of each of
its jobs in order. -/
def waveBlock (k : Nat) (c : List JobEnv) : List WaveEvent :=
  .waveStart k :: (List.range c.length).map (fun j => .jobResolved k j)

/-- Events of the waves from index `k` on, in program order. -/
def traceAux : Nat → List (List JobEnv) → List WaveEvent
  | _, [] => []
  | k, c :: cs => waveBlock k c ++ traceAux (k + 1) cs

/-- The full event trace of `run_generations` on the given jobs. -/
def runTrace (jobs : List JobEnv) : List WaveEvent :=
  traceAux 0 (pyChunks 4 jobs)

/-- The wave an event belongs to. -/
def waveOf : WaveEvent → Nat
  | .waveStart k => k
  | .jobResolved k _ => k

/-!  ## Export builder (zip block, lines 171-174)

`for idx, img_bytes in enumerate(results): zf.writestr(f"redesign_{idx+1}.jpg", img_bytes)`
— the archive is the ordered list of (entry name, entry bytes) pairs. -/

/-- The archive built from the ordered results. -/
def buildArchive (results : List (List Nat)) : List (String × List Nat) :=
  results.enum.map (fun p => ("redesign_" ++ toString (p.1 + 1) ++ ".jpg", p.2))

/-!  ## Prompt construction (lines 98-110) and the run flow (74-95)  -/

/-- The Art Deco style base prompt (line 101). -/
def decoBase (d : String) : String :=
  "Modify @image1: Transform this " ++ d ++
    " into a vintage Art Deco style. REPLACE the setting with geometric patterns. Change metal to #FFD700 (Yellow Gold). Keep the center stone shape but add baguette side stones. High jewelry photography, 8k."

/-- The Minimalist style base prompt (line 105). -/
def minimalBase (d : String) : String :=
  "Modify @image1: Transform this " ++ d ++
    " into a modern Minimalist style. REMOVE intricate details. Change metal to #E6C2B4 (Rose Gold). Make the band smooth and thin. Focus on the center stone. Studio lighting."

/-- The Pavé style base prompt (line 109). -/
def paveBase (d : String) : String :=
  "Modify @image1: Transform this " ++ d ++
    " into a luxury Pavé style. REPLACE the band surface with micro-pavé diamonds. Change metal to #E5E4E2 (Platinum). Highly reflective, sparkle, cinematic lighting."

/-- The list `prompts_to_run`: for each selected style, `batch_size` copies of the
pair of that style's base prompt and its style name, appended in the
fixed order of the three checkboxes. -/
def prompts_to_run (d : String) (batch_size : Nat) (deco minimal pave : Bool) :
    List (String × String) :=
  (if deco then List.replicate batch_size (decoBase d, "Art Deco") else [])
    ++ (if minimal then List.replicate batch_size (minimalBase d, "Minimalist") else [])
    ++ (if pave then List.replicate batch_size (paveBase d, "Pavé") else [])

/-- The deterministic base prompt of a style name, as a function of the
vision description. -/
def styleBase (style d : String) : String :=
  if style = "Art Deco" then decoBase d
  else if style = "Minimalist" then minimalBase d
  else paveBase d

/-- Outcome of one click of the generate button: stopped for a missing
key, stopped because the vision call raised, or ran to completion with
the submitted jobs and collected results. -/
inductive AppResult where
  | noKey
  | visionFailed (msg : String)
  | completed (description : String) (submitted : List (String × String))
      (results : Except String (List (List Nat)))

/-- The button handler flow (lines 74-158): check the key, run the
vision identification inside its own try block — any exception stops the
run via st.stop() before any generation request exists — then build the
prompts and run the generation batch against the remote world. -/
def appRun (hasKey : Bool) (vision : Except String String) (batch_size : Nat)
    (deco minimal pave : Bool) (world : Nat → JobEnv) : AppResult :=
  if hasKey = false then .noKey
  else
    match vision with
    | .error e => .visionFailed e
    | .ok description =>
      let prompts := prompts_to_run description batch_size deco minimal pave
      .completed description prompts
        (run_generations ((List.range prompts.length).map world))

/-- How many generation jobs a run submitted. -/
def submittedJobs : AppResult → Nat
  | .completed _ submitted _ => submitted.length
  | _ => 0

theorem pyChunks_nil {α : Type} (n : Nat) : pyChunks n ([] : List α) = [] := by
  have h : (n - 1) / n = 0 := by
    cases n with
    | zero => rfl
    | succ m => exact Nat.div_eq_of_lt (by omega)
  simp [pyChunks, h]

theorem pyChunks_cons {α : Type} (n : Nat) (hn : 0 < n) (l : List α) (hl : l ≠ []) :
    pyChunks n l = l.take n :: pyChunks n (l.drop n) := by
  have hlen : 0 < l.length := List.length_pos.mpr hl
  have hdl : (l.drop n).length = l.length - n := List.length_drop n l
  have hm : (l.length + n - 1) / n = ((l.drop n).length + n - 1) / n + 1 := by
    rw [hdl]
    rcases le_or_lt l.length n with hle | hlt
    · have h1 : (l.length + n - 1) / n = 1 :=
        Nat.div_eq_of_lt_le (by omega) (by omega)
      have h2 : (l.length - n + n - 1) / n = 0 :=
        Nat.div_eq_of_lt (by omega)
      omega
    · have he1 : l.length + n - 1 = (l.length - 1) + n := by omega
      have he2 : l.length - n + n - 1 = (l.length - 1 - n) + n := by omega
      rw [he1, he2, Nat.add_div_right _ hn, Nat.add_div_right _ hn]
      have he3 : l.length - 1 = (l.length - 1 - n) + n := by omega
      rw [he3, Nat.add_div_right _ hn]
      simp [Nat.add_sub_cancel]
  rw [pyChunks, pyChunks, hm, List.range_succ_eq_map]
  simp only [List.map_cons, List.map_map]
  congr 1
  · simp
  · apply List.map_congr_left
    intro k _
    simp only [Function.comp_apply, List.drop_drop, Nat.succ_mul]
    congr 2
    omega

theorem pyChunks_flatten {α : Type} (n : Nat) (hn : 0 < n) (l : List α) :
    (pyChunks n l).flatten = l := by
  have main : ∀ (N : Nat) (l : List α), l.length ≤ N → (pyChunks n l).flatten = l := by
    intro N
    induction N with
    | zero =>
      intro l hl
      have h0 : l = [] := List.length_eq_zero.mp (by omega)
      subst h0
      simp [pyChunks_nil]
    | succ N ih =>
      intro l hl
      by_cases hnil : l = []
      · subst hnil
        simp [pyChunks_nil]
      · rw [pyChunks_cons n hn l hnil, List.flatten_cons,
          ih (l.drop n) (by rw [List.length_drop]; omega)]
        exact List.take_append_drop n l
  exact main l.length l le_rfl

theorem pyChunks_mem_length {α : Type} {n : Nat} (hn : 0 < n) {l c : List α}
    (hc : c ∈ pyChunks n l) : 0 < c.length ∧ c.length ≤ n := by
  obtain ⟨k, hk, rfl⟩ := List.mem_map.mp hc
  have hkm : k < (l.length + n - 1) / n := List.mem_range.mp hk
  have h1 : (k + 1) * n ≤ ((l.length + n - 1) / n) * n :=
    Nat.mul_le_mul_right n hkm
  have h2 : ((l.length + n - 1) / n) * n ≤ l.length + n - 1 :=
    Nat.div_mul_le_self _ _
  have hs : (k + 1) * n = k * n + n := by ring
  have h3 : k * n < l.length := by omega
  constructor
  · simp only [List.length_take, List.length_drop]
    omega
  · simp only [List.length_take]
    omega

theorem pyChunks_full {α : Type} {n : Nat} (hn : 0 < n) {l c : List α} {k : Nat}
    (hc : (pyChunks n l)[k]? = some c) (hk : k + 1 < (pyChunks n l).length) :
    c.length = n := by
  have hlen : (pyChunks n l).length = (l.length + n - 1) / n := by
    simp [pyChunks]
  rw [hlen] at hk
  have hc' : c = (l.drop (k * n)).take n := by
    rw [pyChunks, List.getElem?_map, List.getElem?_range (by omega)] at hc
    simp at hc
    exact hc.symm
  have h1 : (k + 2) * n ≤ ((l.length + n - 1) / n) * n :=
    Nat.mul_le_mul_right n (by omega)
  have h2 : ((l.length + n - 1) / n) * n ≤ l.length + n - 1 :=
    Nat.div_mul_le_self _ _
  have hs : (k + 2) * n = k * n + n + n := by ring
  have h3 : k * n + n ≤ l.length := by omega
  rw [hc']
  simp only [List.length_take, List.length_drop]
  omega

theorem waveOf_waveBlock {k : Nat} {c : List JobEnv} {e : WaveEvent}
    (he : e ∈ waveBlock k c) : waveOf e = k := by
  rcases List.mem_cons.mp he with h | h
  · subst h; rfl
  · obtain ⟨j, _, rfl⟩ := List.mem_map.mp h; rfl

theorem waveOf_traceAux {k : Nat} {cs : List (List JobEnv)} {e : WaveEvent}
    (he : e ∈ traceAux k cs) : k ≤ waveOf e := by
  induction cs generalizing k with
  | nil => simp [traceAux] at he
  | cons c cs ih =>
    rw [traceAux] at he
    rcases List.mem_append.mp he with h | h
    · rw [waveOf_waveBlock h]
    · exact le_trans (by omega) (ih h)

theorem pairwise_traceAux (k : Nat) (cs : List (List JobEnv)) :
    (traceAux k cs).Pairwise (fun a b => waveOf a ≤ waveOf b) := by
  induction cs generalizing k with
  | nil => simp [traceAux]
  | cons c cs ih =>
    rw [traceAux]
    apply List.pairwise_append.mpr
    refine ⟨?_, ih (k + 1), ?_⟩
    · apply List.pairwise_of_forall_mem_list
      intro a ha b hb
      rw [waveOf_waveBlock ha, waveOf_waveBlock hb]
    · intro a ha b hb
      rw [waveOf_waveBlock ha]
      exact le_trans (by omega) (waveOf_traceAux hb)

theorem runTrace_order {jobs : List JobEnv} {i j k k2 jj : Nat}
    (hi : (runTrace jobs)[i]? = some (.jobResolved k jj))
    (hj : (runTrace jobs)[j]? = some (.waveStart k2))
    (hkk : k < k2) : i < j := by
  by_contra hij
  push_neg at hij
  obtain ⟨hilen, hig⟩ := List.getElem?_eq_some.mp hi
  obtain ⟨hjlen, hjg⟩ := List.getElem?_eq_some.mp hj
  have hp : (runTrace jobs).Pairwise (fun a b => waveOf a ≤ waveOf b) :=
    pairwise_traceAux 0 (pyChunks 4 jobs)
  rcases Nat.lt_or_ge j i with hlt | hge
  · have hle := List.pairwise_iff_getElem.mp hp j i hjlen hilen hlt
    rw [hig, hjg] at hle
    simp [waveOf] at hle
    omega
  · have hji : j = i := by omega
    subst hji
    rw [hig] at hjg
    exact WaveEvent.noConfusion hjg

theorem foldl_handleJob (l : List JobEnv) :
    ∀ acc, l.foldl handleJob acc =
      acc ++ l.filterMap (fun e => (jobBody e).toOption) := by
  induction l with
  | nil => intro acc; simp
  | cons e t ih =>
    intro acc
    rw [List.foldl_cons, ih]
    cases hb : jobBody e with
    | ok b => simp [handleJob, hb, List.filterMap_cons, Except.toOption]
    | error m => simp [handleJob, hb, List.filterMap_cons, Except.toOption]

/-- Scanning an appended job list for a failing submission scans the
earlier list first. -/
theorem firstSubmitError_append (a b : List JobEnv) :
    firstSubmitError (a ++ b) =
      match firstSubmitError a with
      | some m => some m
      | none => firstSubmitError b := by
  induction a with
  | nil => rfl
  | cons e t ih =>
    cases he : e.submit with
    | error m => simp [firstSubmitError, he]
    | ok u => simp [firstSubmitError, he, ih]

/-- A run aborted by an earlier wave stays aborted through the
remaining waves. -/
theorem foldl_runWave_error (cs : List (List JobEnv)) (m : String) :
    cs.foldl runWave (.error m) = .error m := by
  induction cs with
  | nil => rfl
  | cons c cs ih =>
    rw [List.foldl_cons]
    exact ih

/-- Characterization of the wave fold: the first submission exception
of any wave aborts the run; otherwise the run collects the in-order
successes of all jobs. -/
theorem foldl_runWave (cs : List (List JobEnv)) :
    ∀ rs, cs.foldl runWave (.ok rs) =
      match firstSubmitError cs.flatten with
      | some m => .error m
      | none => .ok (rs ++ cs.flatten.filterMap (fun e => (jobBody e).toOption)) := by
  induction cs with
  | nil => intro rs; simp [firstSubmitError]
  | cons c cs ih =>
    intro rs
    rw [List.foldl_cons, List.flatten_cons, firstSubmitError_append]
    cases hc : firstSubmitError c with
    | some m =>
      have hw : runWave (.ok rs) c = .error m := by simp [runWave, hc]
      rw [hw, foldl_runWave_error]
    | none =>
      have hw : runWave (.ok rs) c = .ok (c.foldl handleJob rs) := by
        simp [runWave, hc]
      rw [hw, ih (c.foldl handleJob rs), foldl_handleJob]
      cases hcs : firstSubmitError cs.flatten with
      | some m => simp
      | none => simp [List.filterMap_append, List.append_assoc]

/-- The outcome of a run: the first submission exception aborts it and
discards everything; otherwise the collected results are exactly the
successful payloads, in arrival order — the wave structure changes
neither. -/
theorem run_generations_eq (jobs : List JobEnv) :
    run_generations jobs =
      match firstSubmitError jobs with
      | some m => .error m
      | none => .ok (jobs.filterMap (fun e => (jobBody e).toOption)) := by
  rw [run_generations, foldl_runWave, pyChunks_flatten 4 (by omega) jobs]
  cases firstSubmitError jobs <;> simp

theorem count_filterMap {α β : Type} [BEq β] [LawfulBEq β] (f : α → Option β) (b : β)
    (l : List α) :
    (l.filterMap f).count b = (l.map f).count (some b) := by
  induction l with
  | nil => rfl
  | cons a t ih =>
    cases hf : f a with
    | none => simp [List.filterMap_cons, hf, List.count_cons, ih, beq_iff_eq]
    | some c => simp [List.filterMap_cons, hf, List.count_cons, ih, beq_iff_eq]

/-- A job whose submission succeeds, whose get resolves with one image
URL, and whose download answers status 200 with the given bytes. -/
def okJob (b : List Nat) : JobEnv :=
  ⟨.ok (), .ok ⟨some [⟨some "u"⟩]⟩, fun _ => .httpResponse 200 b⟩

/-- A job whose submission coroutine raises inside the gather. -/
def submitFailJob : JobEnv :=
  ⟨.error "ConnectionError", .ok ⟨some [⟨some "u"⟩]⟩,
    fun _ => .httpResponse 200 [0]⟩

/-- A job whose byte download answers with HTTP status 500 and an
error-page body. -/
def status500Job : JobEnv :=
  ⟨.ok (), .ok ⟨some [⟨some "u"⟩]⟩, fun _ => .httpResponse 500 [9]⟩

/-- Counterexample to claim C2 as stated: in a batch of 5 jobs where
job 3's failure is a network error raised while its submission
coroutine runs inside `asyncio.gather` — outside the per-job try block
— the exception propagates uncaught and aborts the run: the result is
an error, not a completed run with 4 entries, and the sibling
successes are lost.  And a byte download failing with a non-success
HTTP status does not raise: its error-page bytes are appended, so that
failing job contributes one entry, not zero. -/
theorem C2_counterexample :
    run_generations [okJob [1], okJob [2], submitFailJob, okJob [3], okJob [4]] =
      .error "ConnectionError" ∧
    run_generations [status500Job] = .ok [[9]] := by
  constructor <;> rfl

/-- Claim C2 (amended): a failure raised inside the per-job try block —
the awaited get() raising, a malformed response body, or the byte
download raising — is caught and contributes zero entries while every
sibling success is still collected: a run whose submissions all succeed
returns exactly the successful payloads in order.  But an exception
raised while a submission coroutine runs inside `asyncio.gather`
propagates uncaught and aborts sibling jobs and all later waves, and a
byte download answering a non-success HTTP status is appended as a
result rather than counted as a failure. -/
theorem C2_failure_semantics (jobs : List JobEnv) :
    run_generations jobs =
      match firstSubmitError jobs with
      | some m => .error m
      | none => .ok (jobs.filterMap (fun e => (jobBody e).toOption)) :=
  run_generations_eq jobs

/-- A job whose submission succeeds, whose response carries one image
URL, and whose download returns the single byte 7. -/
def cexJob : JobEnv :=
  ⟨.ok (), .ok ⟨some [⟨some "u"⟩]⟩, fun _ => .httpResponse 200 [7]⟩

/-- Counterexample to claim C1 as stated: two jobs returning
byte-identical payloads produce two stored results — `run_generations`
performs no content hashing and no deduplication, so the final results
list holds the identical bytes twice and is not duplicate-free. -/
theorem C1_counterexample :
    run_generations [cexJob, cexJob] = .ok [[7], [7]] ∧
    ([[7], [7]] : List (List Nat)).length = 2 ∧
    ¬ ([[7], [7]] : List (List Nat)).Nodup := by
  refine ⟨rfl, rfl, by decide⟩

/-- Claim C1 (amended): the result collector does not deduplicate at
all: for every completed run and every byte content, the number of
stored entries with that content equals the number of jobs whose
processing succeeded with that content — in particular two
byte-identical payloads yield two entries. -/
theorem C1_no_dedup (jobs : List JobEnv) (rs : List (List Nat)) (b : List Nat)
    (h : run_generations jobs = .ok rs) :
    rs.count b = (jobs.map (fun e => (jobBody e).toOption)).count (some b) := by
  rw [run_generations_eq] at h
  cases hfs : firstSubmitError jobs with
  | some m =>
    rw [hfs] at h
    exact Except.noConfusion h
  | none =>
    rw [hfs] at h
    rw [← Except.ok.inj h, count_filterMap]

/-- Witness for the amended claim C1 at two byte-identical jobs. -/
theorem C1_no_dedup_witness :
    (run_generations [cexJob, cexJob] = .ok [[7], [7]]) ∧
    ([[7], [7]] : List (List Nat)).count [7] =
      ([cexJob, cexJob].map (fun e => (jobBody e).toOption)).count (some [7]) :=
  ⟨rfl, C1_no_dedup [cexJob, cexJob] [[7], [7]] [7] rfl⟩

/-- Counterexample to claim C3 as stated: the archive entry names use
the prefix redesign, not variation. -/
theorem C3_counterexample :
    (buildArchive [[1], [2], [3]]).map Prod.fst =
      ["redesign_1.jpg", "redesign_2.jpg", "redesign_3.jpg"] ∧
    ¬ (buildArchive [[1], [2], [3]]).map Prod.fst =
      ["variation_1.jpg", "variation_2.jpg", "variation_3.jpg"] := by
  constructor
  · rfl
  · intro hv
    have hr : (buildArchive [[1], [2], [3]]).map Prod.fst =
        ["redesign_1.jpg", "redesign_2.jpg", "redesign_3.jpg"] := rfl
    rw [hr] at hv
    exact absurd hv (by decide)

/-- Claim C3 (amended): the export builder produces one archive entry
per result in order; the entry at 1-based position n is named
redesign_n.jpg (not variation_n.jpg) and carries that result's exact
byte content. -/
theorem C3_archive_entries (results : List (List Nat)) :
    (buildArchive results).length = results.length ∧
    ∀ i : Nat, (buildArchive results)[i]? =
      (results[i]?).map (fun b => ("redesign_" ++ toString (i + 1) ++ ".jpg", b)) := by
  constructor
  · simp [buildArchive]
  · intro i
    rw [buildArchive, List.getElem?_map, List.getElem?_enum]
    cases results[i]? <;> rfl

/-- Claim C4: the batch scheduler partitions the submitted jobs into
consecutive chunks of the concurrency limit 4 (flattening the chunks
restores the job list; every non-final chunk has exactly 4 jobs and the
final chunk between 1 and 4), with concurrency limit 4 and 10 requests
exactly 3 waves of sizes 4, 4 and 2 run, and waves are strictly
sequential: in the event trace no wave start precedes the resolution of
any job of an earlier wave. -/
theorem C4_wave_scheduling :
    (∀ jobs : List JobEnv, (pyChunks 4 jobs).flatten = jobs) ∧
    (∀ (jobs c : List JobEnv), c ∈ pyChunks 4 jobs → 0 < c.length ∧ c.length ≤ 4) ∧
    (∀ (jobs c : List JobEnv) (k : Nat), (pyChunks 4 jobs)[k]? = some c →
      k + 1 < (pyChunks 4 jobs).length → c.length = 4) ∧
    ((pyChunks 4 (List.range 10)).map List.length = [4, 4, 2]) ∧
    (∀ (jobs : List JobEnv) (i j k k2 jj : Nat),
      (runTrace jobs)[i]? = some (.jobResolved k jj) →
      (runTrace jobs)[j]? = some (.waveStart k2) → k < k2 → i < j) := by
  refine ⟨fun jobs => pyChunks_flatten 4 (by omega) jobs,
    fun jobs c hc => pyChunks_mem_length (by omega) hc,
    fun jobs c k hc hk => pyChunks_full (by omega) hc hk,
    by decide,
    fun jobs i j k k2 jj hi hj hkk => runTrace_order hi hj hkk⟩

/-- A job environment used for concrete witnesses. -/
def sampleJob : JobEnv :=
  ⟨.ok (), .ok ⟨some [⟨some "u"⟩]⟩, fun _ => .httpResponse 200 [0]⟩

/-- Five submitted jobs, giving two waves of sizes 4 and 1. -/
def sampleJobs5 : List JobEnv :=
  [sampleJob, sampleJob, sampleJob, sampleJob, sampleJob]

/-- Witness for claim C4 on a concrete 5-job batch: its first wave is a
full chunk of 4 jobs, and in its trace the job resolution at index 1
(wave 0) precedes the start of wave 1 at index 5. -/
theorem C4_wave_scheduling_witness :
    ((pyChunks 4 sampleJobs5)[0]? =
        some [sampleJob, sampleJob, sampleJob, sampleJob] ∧
      0 + 1 < (pyChunks 4 sampleJobs5).length ∧
      (runTrace sampleJobs5)[1]? = some (.jobResolved 0 0) ∧
      (runTrace sampleJobs5)[5]? = some (.waveStart 1) ∧ 0 < 1) ∧
    (([sampleJob, sampleJob, sampleJob, sampleJob] : List JobEnv).length = 4 ∧
      1 < 5) := by
  have h0 : (pyChunks 4 sampleJobs5)[0]? =
      some [sampleJob, sampleJob, sampleJob, sampleJob] := rfl
  have h1 : 0 + 1 < (pyChunks 4 sampleJobs5).length := by
    show 0 + 1 < 2
    omega
  have h2 : (runTrace sampleJobs5)[1]? = some (.jobResolved 0 0) := by decide
  have h3 : (runTrace sampleJobs5)[5]? = some (.waveStart 1) := by decide
  exact ⟨⟨h0, h1, h2, h3, by omega⟩,
    C4_wave_scheduling.2.2.1 sampleJobs5 _ 0 h0 h1,
    C4_wave_scheduling.2.2.2.2 sampleJobs5 1 5 0 1 0 h2 h3 (by omega)⟩

theorem reportsAux_length (acc : Nat) (cs : List (List JobEnv)) :
    (reportsAux acc cs).length = cs.length := by
  induction cs generalizing acc with
  | nil => rfl
  | cons c cs ih => simp [reportsAux, ih]

theorem reportsAux_chain (acc : Nat) (cs : List (List JobEnv))
    (h : ∀ c ∈ cs, 0 < c.length) :
    List.Chain' (· < ·) (acc :: reportsAux acc cs) := by
  induction cs generalizing acc with
  | nil => simp [reportsAux]
  | cons c cs ih =>
    rw [reportsAux]
    refine List.Chain'.cons ?_
      (ih (acc + c.length) (fun d hd => h d (List.mem_cons_of_mem c hd)))
    have := h c (List.mem_cons_self c cs)
    omega

theorem reportsAux_getLast (acc : Nat) (cs : List (List JobEnv)) (h : cs ≠ []) :
    (reportsAux acc cs).getLast? = some (acc + (cs.map List.length).sum) := by
  induction cs generalizing acc with
  | nil => exact absurd rfl h
  | cons c cs ih =>
    cases cs with
    | nil => simp [reportsAux]
    | cons d ds =>
      have hih := ih (acc + c.length) (List.cons_ne_nil d ds)
      show ((acc + c.length) :: reportsAux (acc + c.length) (d :: ds)).getLast? = _
      rw [show reportsAux (acc + c.length) (d :: ds) =
          (acc + c.length + d.length) :: reportsAux (acc + c.length + d.length) ds
          from rfl, List.getLast?_cons_cons,
        ← show reportsAux (acc + c.length) (d :: ds) =
          (acc + c.length + d.length) :: reportsAux (acc + c.length + d.length) ds
          from rfl, hih]
      simp only [List.map_cons, List.sum_cons, Option.some.injEq]
      omega

theorem reportsAux_congr : ∀ (cs cs2 : List (List JobEnv)) (acc : Nat),
    cs.map List.length = cs2.map List.length →
      reportsAux acc cs = reportsAux acc cs2 := by
  intro cs
  induction cs with
  | nil =>
    intro cs2 acc h
    cases cs2 with
    | nil => rfl
    | cons d ds => simp at h
  | cons c cs ih =>
    intro cs2 acc h
    cases cs2 with
    | nil => simp at h
    | cons d ds =>
      simp only [List.map_cons, List.cons.injEq] at h
      rw [reportsAux, reportsAux, h.1, ih ds _ h.2]

theorem pyChunks_map_length {α : Type} (n : Nat) (l : List α) :
    (pyChunks n l).map List.length =
      (List.range ((l.length + n - 1) / n)).map (fun k => min n (l.length - k * n)) := by
  rw [pyChunks, List.map_map]
  apply List.map_congr_left
  intro k _
  simp [List.length_take, List.length_drop]

theorem completedReports_congr (jobs jobs2 : List JobEnv)
    (h : jobs.length = jobs2.length) :
    completedReports jobs = completedReports jobs2 := by
  apply reportsAux_congr
  rw [pyChunks_map_length, pyChunks_map_length, h]

theorem pyChunks_ne_nil {α : Type} {n : Nat} (hn : 0 < n) {l : List α} (hl : l ≠ []) :
    pyChunks n l ≠ [] := by
  rw [pyChunks_cons n hn l hl]
  exact List.cons_ne_nil _ _

theorem pyChunks_sum_length {α : Type} (n : Nat) (hn : 0 < n) (l : List α) :
    ((pyChunks n l).map List.length).sum = l.length := by
  calc ((pyChunks n l).map List.length).sum
      = (pyChunks n l).flatten.length := (List.length_flatten _).symm
    _ = l.length := by rw [pyChunks_flatten n hn l]

/-- Claim C5: the reported completed count is strictly increasing from
0 (one report per wave, independent of which jobs failed since only the
chunk sizes enter it), and when at least one job was requested the final
completed count equals the total requested and the final reported
progress fraction equals 1. -/
theorem C5_progress_monotone (jobs : List JobEnv) :
    List.Chain' (· < ·) (0 :: completedReports jobs) ∧
    (completedReports jobs).length = (pyChunks 4 jobs).length ∧
    (∀ jobs2 : List JobEnv, jobs.length = jobs2.length →
      completedReports jobs = completedReports jobs2) ∧
    (jobs ≠ [] →
      (completedReports jobs).getLast? = some jobs.length ∧
      (progressReports jobs).getLast? = some 1) := by
  refine ⟨?_, reportsAux_length 0 _,
    fun jobs2 h => completedReports_congr jobs jobs2 h, ?_⟩
  · exact reportsAux_chain 0 _ (fun c hc => (pyChunks_mem_length (by omega) hc).1)
  · intro hne
    have hlast : (completedReports jobs).getLast? = some jobs.length := by
      rw [completedReports, reportsAux_getLast 0 _ (pyChunks_ne_nil (by omega) hne),
        pyChunks_sum_length 4 (by omega) jobs]
      simp
    refine ⟨hlast, ?_⟩
    rw [progressReports, List.getLast?_map, hlast]
    have hL : (jobs.length : ℚ) ≠ 0 := by
      simp only [ne_eq, Nat.cast_eq_zero]
      exact fun h0 => hne (List.length_eq_zero.mp h0)
    simp [div_self hL]

/-- Witness for claim C5 on a concrete nonempty 5-job batch. -/
theorem C5_progress_monotone_witness :
    (sampleJobs5 ≠ []) ∧
    ((completedReports sampleJobs5).getLast? = some sampleJobs5.length ∧
      (progressReports sampleJobs5).getLast? = some 1) := by
  have hne : sampleJobs5 ≠ [] := by simp [sampleJobs5]
  exact ⟨hne, (C5_progress_monotone sampleJobs5).2.2.2 hne⟩

theorem mem_prompts_to_run {d : String} {batch_size : Nat} {deco minimal pave : Bool}
    {p s : String} (hmem : (p, s) ∈ prompts_to_run d batch_size deco minimal pave) :
    (p = decoBase d ∧ s = "Art Deco") ∨ (p = minimalBase d ∧ s = "Minimalist") ∨
      (p = paveBase d ∧ s = "Pavé") := by
  rw [prompts_to_run] at hmem
  rcases List.mem_append.mp hmem with h12 | h3
  · rcases List.mem_append.mp h12 with h1 | h2
    · left
      cases deco with
      | false => simp at h1
      | true =>
        rw [if_pos rfl] at h1
        have hpair := (List.mem_replicate.mp h1).2
        simp only [Prod.mk.injEq] at hpair
        exact hpair
    · right; left
      cases minimal with
      | false => simp at h2
      | true =>
        rw [if_pos rfl] at h2
        have hpair := (List.mem_replicate.mp h2).2
        simp only [Prod.mk.injEq] at hpair
        exact hpair
  · right; right
    cases pave with
    | false => simp at h3
    | true =>
      rw [if_pos rfl] at h3
      have hpair := (List.mem_replicate.mp h3).2
      simp only [Prod.mk.injEq] at hpair
      exact hpair

/-- Claim C8: the generation pipeline never invokes the prompt resolver:
every job pair in `prompts_to_run` carries the deterministic base prompt
of its style applied to the vision description, so all jobs of one
selected style are submitted with the exact same prompt string and no
per-job randomized variation occurs. -/
theorem C8_same_prompt_per_style (d : String) (batch_size : Nat)
    (deco minimal pave : Bool) (p s : String)
    (hmem : (p, s) ∈ prompts_to_run d batch_size deco minimal pave) :
    p = styleBase s d ∧
    ∀ p2 : String, (p2, s) ∈ prompts_to_run d batch_size deco minimal pave →
      p2 = p := by
  have h1 := mem_prompts_to_run hmem
  constructor
  · rcases h1 with ⟨hp, hs⟩ | ⟨hp, hs⟩ | ⟨hp, hs⟩ <;> subst hp <;> subst hs
    · rw [styleBase, if_pos rfl]
    · rw [styleBase, if_neg (by decide), if_pos rfl]
    · rw [styleBase, if_neg (by decide), if_neg (by decide)]
  · intro p2 hmem2
    have h2 := mem_prompts_to_run hmem2
    rcases h1 with ⟨hp, hs⟩ | ⟨hp, hs⟩ | ⟨hp, hs⟩ <;>
      rcases h2 with ⟨hp2, hs2⟩ | ⟨hp2, hs2⟩ | ⟨hp2, hs2⟩ <;>
        subst hp <;> subst hp2 <;>
          first
            | rfl
            | exact absurd (hs.symm.trans hs2) (by decide)

/-- Witness for claim C8 at a concrete description and batch size. -/
theorem C8_same_prompt_per_style_witness :
    ((decoBase "x", "Art Deco") ∈ prompts_to_run "x" 2 true false false) ∧
    (decoBase "x" = styleBase "Art Deco" "x" ∧
      ∀ p2 : String, (p2, "Art Deco") ∈ prompts_to_run "x" 2 true false false →
        p2 = decoBase "x") := by
  have hm : (decoBase "x", "Art Deco") ∈ prompts_to_run "x" 2 true false false := by
    simp [prompts_to_run]
  exact ⟨hm, C8_same_prompt_per_style "x" 2 true false false _ _ hm⟩

/-- Claim C10: when the vision identification call fails (raises), the
run stops at st.stop() with the failure surfaced: no prompts are built
and zero generation jobs are submitted, whatever the batch size, style
selection or remote world. -/
theorem C10_vision_failure_fatal (e : String) (batch_size : Nat)
    (deco minimal pave : Bool) (world : Nat → JobEnv) (hasKey : Bool) :
    appRun hasKey (.error e) batch_size deco minimal pave world =
      (if hasKey then AppResult.visionFailed e else AppResult.noKey) ∧
    submittedJobs (appRun hasKey (.error e) batch_size deco minimal pave world) = 0 := by
  cases hasKey <;> simp [appRun, submittedJobs]

end JewelBench
